import Mathlib

/-!
FX Notifier — verification of the rate-fetch-and-format pipeline

Shallow embedding of `fx_bot.py` (the `fx-notifier` repository).

Modelling conventions:
* Python strings are Lean `String`; `str.strip` is `String.trim`,
  `str.upper` is `String.toUpper` (ASCII, which covers the inputs used here),
  the substring test `pat in s` is `subStr s pat` below.
* JSON numbers (floats) are modelled as `ℚ`.  Python raises
  `ZeroDivisionError` on `x / 0.0`, so division in the model is guarded and
  produces the explicit error `FErr.zeroDivision`.
* The HTTP transport is a parameter `prov : Req → Resp`: the provider is a
  pure function from the request the code builds to the response it gets.
* `dict` values are association lists with the usual first-match lookup;
  `results[k] = v` is the in-place-overwrite-or-append `dinsert`.
* The `str(...)` renderings of JSON bodies that the code interpolates into
  error messages and scans for `"invalid_api_function"` are carried as
  string fields of the body model.
-/

namespace FxBot

/-! ## String containment (Python `in` on `str`) -/

/-- Occurrence of `pat` as a contiguous sublist of `cs`. -/
def listHas : List Char → List Char → Bool
  | [], pat => pat.isEmpty
  | cs@(_ :: t), pat => pat.isPrefixOf cs || listHas t pat

/-- Python `pat in s` for strings. -/
def subStr (s pat : String) : Bool :=
  listHas s.data pat.data

theorem isPrefixOf_append_r (p : List Char) :
    ∀ xs ys : List Char, p.isPrefixOf xs = true → p.isPrefixOf (xs ++ ys) = true := by
  induction p with
  | nil => intro xs ys _; simp [List.isPrefixOf]
  | cons a as ih =>
    intro xs ys h
    cases xs with
    | nil => simp [List.isPrefixOf] at h
    | cons b bs =>
      simp only [List.cons_append, List.isPrefixOf, Bool.and_eq_true] at h ⊢
      exact ⟨h.1, ih bs ys h.2⟩

theorem isPrefixOf_self_append (p ys : List Char) : p.isPrefixOf (p ++ ys) = true := by
  induction p with
  | nil => simp [List.isPrefixOf]
  | cons a as ih => simp [List.isPrefixOf, ih]

theorem listHas_append_left (pat : List Char) :
    ∀ xs ys : List Char, listHas ys pat = true → listHas (xs ++ ys) pat = true := by
  intro xs
  induction xs with
  | nil => intro ys h; simpa using h
  | cons a t ih =>
    intro ys h
    simp only [List.cons_append, listHas, Bool.or_eq_true]
    exact Or.inr (ih ys h)

theorem listHas_of_isPrefixOf {pat cs : List Char} (h : pat.isPrefixOf cs = true) :
    listHas cs pat = true := by
  cases cs with
  | nil =>
    cases pat with
    | nil => rfl
    | cons a as => simp [List.isPrefixOf] at h
  | cons b bs => simp [listHas, h]

theorem listHas_append_right (pat : List Char) :
    ∀ xs ys : List Char, listHas xs pat = true → listHas (xs ++ ys) pat = true := by
  intro xs
  induction xs with
  | nil =>
    intro ys h
    cases pat with
    | nil => simp [listHas_of_isPrefixOf, List.isPrefixOf]
    | cons a as => simp [listHas] at h
  | cons b bs ih =>
    intro ys h
    simp only [listHas, Bool.or_eq_true] at h
    rcases h with h | h
    · have h2 := isPrefixOf_append_r pat (b :: bs) ys h
      rw [List.cons_append] at h2
      simp only [List.cons_append, listHas, Bool.or_eq_true]
      exact Or.inl h2
    · simp only [List.cons_append, listHas, Bool.or_eq_true]
      exact Or.inr (ih ys h)

/-- The pattern sitting literally between two contexts is found. -/
theorem listHas_sandwich (xs pat ys : List Char) :
    listHas (xs ++ (pat ++ ys)) pat = true := by
  apply listHas_append_left
  exact listHas_of_isPrefixOf (isPrefixOf_self_append pat ys)

/-- The head character of a found nonempty pattern occurs in the text. -/
theorem head_mem_of_listHas {cs : List Char} {c : Char} {pat : List Char}
    (h : listHas cs (c :: pat) = true) : c ∈ cs := by
  induction cs with
  | nil => simp [listHas, List.isEmpty] at h
  | cons b bs ih =>
    simp only [listHas, Bool.or_eq_true] at h
    rcases h with h | h
    · simp only [List.isPrefixOf, Bool.and_eq_true, beq_iff_eq] at h
      simp [h.1]
    · exact List.mem_cons_of_mem _ (ih h)

/-! ## Pair normalization — `_normalize_pairs` (fx_bot.py lines 80–88)

`p = p.strip().upper()`; entries that are empty or have no `/` are skipped;
the rest are split on the FIRST `/` and both sides are stripped again.
Note the code does not drop entries whose side is empty after the split. -/

/-- Python `s.strip()` (whitespace variant), on the character list so that it
reduces in the kernel. -/
def pyStrip (s : String) : String :=
  ⟨((s.data.dropWhile Char.isWhitespace).reverse.dropWhile Char.isWhitespace).reverse⟩

/-- Python `s.upper()` (ASCII inputs). -/
def pyUpper (s : String) : String :=
  ⟨s.data.map Char.toUpper⟩

/-- Python `s.split("/", 1)` for a string containing `/`. -/
def splitFirstSlash (s : String) : String × String :=
  (⟨s.data.takeWhile (· ≠ '/')⟩, ⟨(s.data.dropWhile (· ≠ '/')).drop 1⟩)

/-- One iteration of the `_normalize_pairs` loop: `none` means the entry is
skipped. -/
def normalizeOne (p0 : String) : Option (String × String) :=
  let p := pyUpper (pyStrip p0)
  if p = "" ∨ ¬ (p.data.contains '/') then none
  else
    let bq := splitFirstSlash p
    some (pyStrip bq.1, pyStrip bq.2)

/-- `_normalize_pairs` from fx_bot.py. -/
def normalize_pairs (pairs : List String) : List (String × String) :=
  pairs.filterMap normalizeOne

example : normalize_pairs ["eur/usd", " USD/huf ", "badformat"] =
    [("EUR", "USD"), ("USD", "HUF")] := by decide

example : normalize_pairs ["EUR/"] = [("EUR", "")] := by decide

/-! ## The provider interface

`fetch_rates` issues requests through `requests.get(api_url, params=...)`.
A request is determined by the query parameters the code chooses: an optional
`base` parameter and the `symbols` list (the access key is attached to every
request and the URL is fixed, so neither distinguishes requests).  The
transport is a pure function `Req → Resp`. -/

structure Req where
  base? : Option String
  symbols : List String
deriving DecidableEq

/-- A parsed response body: `jdict` is a JSON object (carrying the fields the
code reads, plus the `str(...)` renderings it interpolates or scans), `jtext`
means `resp.json()` fails and `resp.text` is `s`. -/
inductive RBody where
  | jdict (errTypeStr errStr fullStr : String) (success : Option Bool)
      (rates : List (String × ℚ)) (base : Option String)
  | jtext (s : String)
deriving DecidableEq

structure Resp where
  status : Nat
  body : RBody
deriving DecidableEq

/-- The `str(body)` rendering interpolated into error messages. -/
def bodyStr : RBody → String
  | .jdict _ _ full _ _ _ => full
  | .jtext s => s

/-- Lines 143–156: retry only on status 404 whose body mentions
`invalid_api_function` (in `str(err.get("type",""))` or `str(err)` for dict
bodies, in `str(body)` otherwise). -/
def shouldRetry (status : Nat) (b : RBody) : Bool :=
  status == 404 &&
    (match b with
     | .jdict errTypeStr errStr _ _ _ _ =>
         subStr errTypeStr "invalid_api_function" || subStr errStr "invalid_api_function"
     | .jtext s => subStr s "invalid_api_function")

/-- The exceptions `fetch_rates` can raise.  `apiError`/`exchangeError`/
`configError` are the `RuntimeError`s; `zeroDivision` is the Python
`ZeroDivisionError` from `float(r_q) / float(r_b)` with `r_b == 0.0`;
`jsonDecode` is the `JSONDecodeError` escaping from `resp.json()` on a 200
response whose body is not valid JSON. -/
inductive FErr where
  | configError
  | apiError (status : Nat) (detail : String)
  | exchangeError (detail : String)
  | zeroDivision
  | jsonDecode
deriving DecidableEq

/-- The `str(...)` of the raised exception, as `run` would see it. -/
def renderFErr : FErr → String
  | .configError => "EXCHANGERATE_ACCESS_KEY environment variable is required"
  | .apiError s d => "API error (status " ++ toString s ++ "): " ++ d
  | .exchangeError d => "Exchange API error: " ++ d
  | .zeroDivision => "float division by zero"
  | .jsonDecode => "Expecting value"

/-- Logger calls made by `fetch_rates` (only those with claim-relevant
content). -/
inductive LogE where
  | errorFetchFailed (base detail : String)
  | errorFallbackFailed (base detail : String)
  | errorExchangeApi (base detail : String)
  | warnMissingFallback (base quote : String)
  | warnMissing (base quote : String)
deriving DecidableEq

/-- `results[k] = v` on a Python dict: overwrite in place or append. -/
def dinsert : List (String × ℚ) → String → ℚ → List (String × ℚ)
  | [], k, v => [(k, v)]
  | (k1, v1) :: t, k, v => if k1 = k then (k, v) :: t else (k1, v1) :: dinsert t k v

/-- `grouped.setdefault(base, []).append(quote)` over the pair list
(insertion-ordered dict of base ↦ quotes). -/
def addToGroup : List (String × List String) → String → String → List (String × List String)
  | [], b, q => [(b, [q])]
  | (b1, qs) :: t, b, q =>
      if b1 = b then (b1, qs ++ [q]) :: t else (b1, qs) :: addToGroup t b q

def groupPairs (l : List (String × String)) : List (String × List String) :=
  l.foldl (fun acc bq => addToGroup acc bq.1 bq.2) []

/-- Python `set(...)` keeping first occurrences (the subsequent `sorted`
makes the traversal order irrelevant). -/
def dedupAux : List String → List String → List String
  | [], _ => []
  | x :: t, seen => if x ∈ seen then dedupAux t seen else x :: dedupAux t (x :: seen)

def dedupStr (l : List String) : List String := dedupAux l []

/-- Code-point lexicographic strict comparison, Python `a < b` on `str`. -/
def lexLt : List Char → List Char → Bool
  | [], [] => false
  | [], _ :: _ => true
  | _ :: _, [] => false
  | a :: as, b :: bs => if a < b then true else if b < a then false else lexLt as bs

def strLt (a b : String) : Bool := lexLt a.data b.data

def strLe (a b : String) : Bool := !(strLt b a)

def strLtP (a b : String) : Prop := strLt a b = true

def strLeP (a b : String) : Prop := strLe a b = true

instance : DecidableRel strLtP := fun _ _ => inferInstanceAs (Decidable (_ = true))

instance : DecidableRel strLeP := fun _ _ => inferInstanceAs (Decidable (_ = true))

theorem lexLt_asymm : ∀ {a b : List Char}, lexLt a b = true → lexLt b a = false := by
  intro a
  induction a with
  | nil => intro b h; cases b <;> simp_all [lexLt]
  | cons x xs ih =>
    intro b h
    cases b with
    | nil => simp [lexLt] at h
    | cons y ys =>
      simp only [lexLt] at h ⊢
      by_cases h1 : x < y
      · have h2 : ¬ y < x := lt_asymm h1
        simp [h1, h2]
      · by_cases h2 : y < x
        · simp [h1, h2] at h
        · have := ih (by simpa [h1, h2] using h)
          simp [h1, h2, this]

theorem lexLt_total : ∀ {a b : List Char}, lexLt a b = false → lexLt b a = false → a = b := by
  intro a
  induction a with
  | nil => intro b h1 h2; cases b <;> simp_all [lexLt]
  | cons x xs ih =>
    intro b h1 h2
    cases b with
    | nil => simp [lexLt] at h2
    | cons y ys =>
      simp only [lexLt] at h1 h2
      rcases lt_trichotomy x y with hlt | heq | hgt
      · simp [hlt] at h1
      · subst heq
        simp only [lt_irrefl, if_false] at h1 h2
        rw [ih h1 h2]
      · simp [hgt, lt_asymm hgt] at h2

theorem lexLt_trans : ∀ {a b c : List Char},
    lexLt a b = true → lexLt b c = true → lexLt a c = true := by
  intro a
  induction a with
  | nil =>
    intro b c h1 h2
    cases b with
    | nil => simp [lexLt] at h1
    | cons y ys => cases c with
      | nil => simp [lexLt] at h2
      | cons z zs => simp [lexLt]
  | cons x xs ih =>
    intro b c h1 h2
    cases b with
    | nil => simp [lexLt] at h1
    | cons y ys =>
      cases c with
      | nil => simp [lexLt] at h2
      | cons z zs =>
        simp only [lexLt] at h1 h2 ⊢
        rcases lt_trichotomy x y with hxy | hxy | hxy
        · rcases lt_trichotomy y z with hyz | hyz | hyz
          · simp [lt_trans hxy hyz]
          · subst hyz; simp [hxy]
          · simp [hyz, lt_asymm hyz] at h2
        · subst hxy
          rcases lt_trichotomy x z with hxz | hxz | hxz
          · simp [hxz]
          · subst hxz
            simp only [lt_irrefl, if_false] at h1 h2 ⊢
            exact ih h1 h2
          · simp [hxz, lt_asymm hxz] at h2
        · simp [hxy, lt_asymm hxy] at h1

theorem strLeP_total : ∀ a b : String, strLeP a b ∨ strLeP b a := by
  intro a b
  by_cases h : lexLt b.data a.data = true
  · exact Or.inr (by simp [strLeP, strLe, strLt, lexLt_asymm h])
  · exact Or.inl (by simp [strLeP, strLe, strLt]; simpa using h)

theorem strLeP_trans : ∀ a b c : String, strLeP a b → strLeP b c → strLeP a c := by
  intro a b c h1 h2
  simp only [strLeP, strLe, strLt, Bool.not_eq_true'] at h1 h2 ⊢
  by_contra hcon
  have h3 : lexLt c.data a.data = true := by
    cases hh : lexLt c.data a.data
    · exact absurd hh hcon
    · rfl
  cases hab : lexLt a.data b.data with
  | true => exact absurd (lexLt_trans h3 hab) (by simp [h2])
  | false =>
    have hab2 : a.data = b.data := lexLt_total hab h1
    rw [hab2] at h3
    simp [h3] at h2

theorem strLeP_antisymm : ∀ a b : String, strLeP a b → strLeP b a → a = b := by
  intro a b h1 h2
  simp only [strLeP, strLe, strLt, Bool.not_eq_true'] at h1 h2
  have hd := lexLt_total h2 h1
  cases a with
  | mk as =>
    cases b with
    | mk bs => exact congrArg String.mk hd

instance : IsTotal String strLeP := ⟨strLeP_total⟩

instance : IsTrans String strLeP := ⟨strLeP_trans⟩

instance : IsAntisymm String strLeP := ⟨strLeP_antisymm⟩

/-- Python `sorted(...)` on strings (code-point lexicographic). -/
def sortStr (l : List String) : List String :=
  List.insertionSort strLeP l

def rkey (base q : String) : String := base ++ "/" ++ q

/-- Line 192: `if provider_base and provider_base.upper() == base`. -/
def pbMatches (pb : Option String) (base : String) : Bool :=
  match pb with
  | some s => !(s == "") && (pyUpper s == base)
  | none => false

/-- Lines 179–195: the fallback cross-rate loop over the requested quotes. -/
def crossLoop (base : String) (pb : Option String) (rates2 : List (String × ℚ)) :
    List String → List (String × ℚ) → Except FErr (List (String × ℚ)) × List LogE
  | [], res => (.ok res, [])
  | q :: qs, res =>
    if q = base then crossLoop base pb rates2 qs (dinsert res (rkey base q) 1)
    else
      match List.lookup q rates2, List.lookup base rates2 with
      | some rq, some rb =>
        if pbMatches pb base then crossLoop base pb rates2 qs (dinsert res (rkey base q) rq)
        else if rb = 0 then (.error .zeroDivision, [])
        else crossLoop base pb rates2 qs (dinsert res (rkey base q) (rq / rb))
      | _, _ =>
        let out := crossLoop base pb rates2 qs res
        (out.1, .warnMissingFallback base q :: out.2)

/-- Lines 207–212: the success-path loop over the requested quotes. -/
def happyLoop (base : String) (rates : List (String × ℚ)) :
    List String → List (String × ℚ) → List (String × ℚ) × List LogE
  | [], res => (res, [])
  | q :: qs, res =>
    match List.lookup q rates with
    | some r => happyLoop base rates qs (dinsert res (rkey base q) r)
    | none =>
      let out := happyLoop base rates qs res
      (out.1, .warnMissing base q :: out.2)

/-- The observable outcome of a fetch: the returned table or raised
exception, the provider requests issued in order, and the log. -/
structure FetchOut where
  result : Except FErr (List (String × ℚ))
  reqs : List Req
  logs : List LogE

/-- Lines 127–213: one iteration of the `for base, quotes in grouped.items()`
loop, starting from the results accumulated so far. -/
def processGroup (prov : Req → Resp) (base : String) (quotes : List String)
    (res0 : List (String × ℚ)) : FetchOut :=
  let req1 : Req := ⟨some base, quotes⟩
  let resp := prov req1
  if resp.status ≠ 200 then
    let lg1 := LogE.errorFetchFailed base (bodyStr resp.body)
    if shouldRetry resp.status resp.body then
      let symbols := sortStr (dedupStr (quotes ++ [base]))
      let req2 : Req := ⟨none, symbols⟩
      let resp2 := prov req2
      if resp2.status ≠ 200 then
        ⟨.error (.apiError resp2.status (bodyStr resp2.body)), [req1, req2],
          [lg1, .errorFallbackFailed base (bodyStr resp2.body)]⟩
      else
        match resp2.body with
        | .jtext _ => ⟨.error .jsonDecode, [req1, req2], [lg1]⟩
        | .jdict _ _ _ _ rates2 pb =>
          let out := crossLoop base pb rates2 quotes res0
          ⟨out.1, [req1, req2], lg1 :: out.2⟩
    else
      ⟨.error (.apiError resp.status (bodyStr resp.body)), [req1], [lg1]⟩
  else
    match resp.body with
    | .jtext _ => ⟨.error .jsonDecode, [req1], []⟩
    | .jdict _ errStr _ success rates _ =>
      if success = some false then
        ⟨.error (.exchangeError errStr), [req1], [.errorExchangeApi base errStr]⟩
      else
        let out := happyLoop base rates quotes res0
        ⟨.ok out.1, [req1], out.2⟩

/-- The `for base, quotes in grouped.items()` loop: a raised exception aborts
the whole run, so later groups are neither requested nor merged. -/
def fetchGroups (prov : Req → Resp) :
    List (String × List String) → List (String × ℚ) → FetchOut
  | [], res => ⟨.ok res, [], []⟩
  | (b, qs) :: rest, res =>
    let g := processGroup prov b qs res
    match g.result with
    | .error e => ⟨.error e, g.reqs, g.logs⟩
    | .ok res1 =>
      let out := fetchGroups prov rest res1
      ⟨out.result, g.reqs ++ out.reqs, g.logs ++ out.logs⟩

/-- `fetch_rates` (lines 91–213).  `accessKey` models the
`EXCHANGERATE_ACCESS_KEY`/`EXCHANGE_ACCESS_KEY` lookup; note the empty-input
early return precedes the access-key check. -/
def fetch_rates (accessKey : Option String) (prov : Req → Resp)
    (pairs : List String) : FetchOut :=
  let pl := normalize_pairs pairs
  if pl = [] then ⟨.ok [], [], []⟩
  else
    match accessKey with
    | none => ⟨.error .configError, [], []⟩
    | some _ => fetchGroups prov (groupPairs pl) []

example : sortStr ["HUF", "EUR", "AZN"] = ["AZN", "EUR", "HUF"] := by decide

/-! ## `format_message` (fx_bot.py lines 216–233)

The rate values are `ℚ`; `f"{x:.6f}"` is fixed six-decimal rendering of the
rounded value (rounding ties, which only differ under binary-float
semantics, are not exercised by any claim). -/

/-- Fractional part padded to six digits. -/
def padFrac (fp : Nat) : String :=
  (⟨List.replicate (6 - (toString fp).length) '0'⟩ : String) ++ toString fp

/-- Render the value scaled by `10^6` as six fixed decimals. -/
def natRate6 (n : Nat) : String :=
  toString (n / 1000000) ++ "." ++ padFrac (n % 1000000)

/-- Python `f"{x:.6f}"`. -/
def formatRate6 (q : ℚ) : String :=
  if q < 0 then "-" ++ natRate6 (Int.floor (-q * 1000000 + 1 / 2)).toNat
  else natRate6 (Int.floor (q * 1000000 + 1 / 2)).toNat

theorem formatRate6_example : formatRate6 ((12345 : ℚ) / 10000) = "1.234500" := by
  have h0 : ¬ ((12345 : ℚ) / 10000 < 0) := by norm_num
  have h1 : (⌊(12345 : ℚ) / 10000 * 1000000 + 1 / 2⌋ : ℤ) = 1234500 := by
    rw [Int.floor_eq_iff]
    constructor <;> norm_num
  rw [formatRate6, if_neg h0, h1]
  decide

/-- `rates[pair]` for a pair taken from the key set of the dict itself. -/
def dget (rates : List (String × ℚ)) (k : String) : ℚ :=
  match List.lookup k rates with
  | some v => v
  | none => 0

/-- One rendered body line, `f"{pair}: {rates[pair]:.6f}"`. -/
def rateLine (rates : List (String × ℚ)) (k : String) : String :=
  k ++ ": " ++ formatRate6 (dget rates k)

/-- Python `"\n".join(lines)`. -/
def joinLines : List String → String
  | [] => ""
  | [x] => x
  | x :: xs => x ++ "\n" ++ joinLines xs

/-- `format_message` given the already-rendered timestamp of the header
(`local.strftime` with format `%Y-%m-%d %H:%M %Z`). -/
def format_message (rates : List (String × ℚ)) (ts : String) : String :=
  let header := "FX Rates — " ++ ts
  let lines :=
    if rates.isEmpty then [header, "", "No rates available."]
    else header :: "" :: (sortStr (rates.map Prod.fst)).map (rateLine rates)
  joinLines lines

/-- Timezone resolution (lines 218–225): `ZoneInfo(tz)`/`astimezone` is an
external capability `tzdb` that either yields a conversion of the current
instant or fails (`except Exception`); on failure the un-converted instant
is used.  `render` is `strftime`. -/
def localize (now : Int) (tzdb : String → Except String (Int → Int)) (tz : String) : Int :=
  match tzdb tz with
  | .ok conv => conv now
  | .error _ => now

/-- `format_message(rates, tz)` with the time machinery explicit. -/
def format_message_tz (rates : List (String × ℚ)) (now : Int)
    (tzdb : String → Except String (Int → Int)) (tz : String)
    (render : Int → String) : String :=
  format_message rates (render (localize now tzdb tz))

/-! ## The error report built by `run` on fetch failure (lines 360–391)

`run` catches any exception `exc` from the fetch stage and builds a concise
message from `str(exc)`.  The hint extraction mirrors lines 373–384:
`"invalid_api_function" in exc_text` first, otherwise the regex search
`code\W*(\d{3})` (word characters are ASCII alphanumerics and `_`; `\W*` is
greedy and, since digits are word characters, the regex matches exactly when
the maximal non-word run after a literal `code` is followed by three
digits). -/

def isWordChar (c : Char) : Bool := c.isAlphanum || c = '_'

/-- Match `code\W*(\d{3})` anchored at the start of the text, returning the
captured digit group: after the literal `code`, the greedy `\W*` consumes the
maximal non-word run, and the next three characters must all be digits. -/
def matchCodeAt (cs : List Char) : Option (List Char) :=
  if "code".data.isPrefixOf cs then
    let d3 := ((cs.drop 4).dropWhile (fun c => !(isWordChar c))).take 3
    if d3.length = 3 && d3.all Char.isDigit then some d3 else none
  else none

/-- `re.search`: leftmost match wins. -/
def searchCode : List Char → Option (List Char)
  | [] => none
  | c :: t =>
    match matchCodeAt (c :: t) with
    | some g => some g
    | none => searchCode t

/-- Lines 373–383: the short machine-derived hint, when identifiable. -/
def extractHint (excText : String) : Option String :=
  if subStr excText "invalid_api_function" then some "invalid_api_function"
  else
    match searchCode excText.data with
    | some g => some ("code " ++ (⟨g⟩ : String))
    | none => none

/-- `hint_part` of line 384. -/
def hintPart (excText : String) : String :=
  match extractHint excText with
  | some h => " (" ++ h ++ ")"
  | none => ""

/-- The sanitized error report of lines 386–391, given the rendered local
timestamp. -/
def errorReport (ts excText : String) : String :=
  "FX Rates — Error — " ++ ts ++ "\n\n" ++
    "Could not fetch FX rates due to a provider error." ++ hintPart excText ++
    " Please check `EXCHANGERATE_ACCESS_KEY` and `EXCHANGE_API_URL`." ++
    " See logs for details."

/-- Observable actions of `run` after the fetch stage failed. -/
inductive RunAct where
  | printed (msg : String)
  | sent (msg : String)
deriving DecidableEq

/-- Lines 393–416 on the fetch-failure path: the report is printed, and then
sent unless `DRY_RUN` is set or the Telegram credentials are missing. -/
def runOnFetchFailure (ts excText : String) (dry hasCreds : Bool) : List RunAct :=
  let msg := errorReport ts excText
  .printed msg :: (if dry then [] else if hasCreds then [.sent msg] else [])

/-! ## Derived-rate pipeline variant (spec §4.3) -/

/-- Modelled from the spec: the derived-rate pipeline variant
(`get_fx_rates`/`format_message` exercised by `tests/test_fx_bot.py`) is not
part of the sources; per the spec the rate of the synthetic currency composes the
fetched intermediate rate with a configured fixed peg constant, "rounding
the derived value to 6 decimal places" (ties, which only differ under
binary-float semantics, are not exercised). -/
def roundTo6 (q : ℚ) : ℚ :=
  ((Int.floor (q * 1000000 + 1 / 2) : ℤ) : ℚ) / 1000000

/-- Modelled from the spec: `target = rate_of_intermediate × peg`, rounded to
6 decimal places. -/
def derivedRate (intermediate peg : ℚ) : ℚ :=
  roundTo6 (intermediate * peg)

/-- Modelled from the spec: the rendered report line for the derived
currency, which "must be flagged ... (e.g., an explicit `(derived)` suffix on
its line)"; `render` is the number rendering of the variant. -/
def derivedLine (cur : String) (render : ℚ → String) (intermediate peg : ℚ) : String :=
  "- " ++ cur ++ ": " ++ render (derivedRate intermediate peg) ++ " (derived)"

/-! ## Supporting lemmas -/

theorem strExt {a b : String} (h : a.data = b.data) : a = b := by
  cases a with
  | mk as =>
    cases b with
    | mk bs => exact congrArg String.mk h

theorem data_append (a b : String) : (a ++ b).data = a.data ++ b.data := rfl

theorem subStr_append_right (s t pat : String) (h : subStr t pat = true) :
    subStr (s ++ t) pat = true := by
  unfold subStr at h ⊢
  rw [data_append]
  exact listHas_append_left _ _ _ h

theorem subStr_append_left (s t pat : String) (h : subStr s pat = true) :
    subStr (s ++ t) pat = true := by
  unfold subStr at h ⊢
  rw [data_append]
  exact listHas_append_right _ _ _ h

theorem subStr_suffix (y pat : String) : subStr (y ++ pat) pat = true := by
  unfold subStr
  rw [data_append]
  apply listHas_append_left
  exact listHas_of_isPrefixOf
    (by have h := isPrefixOf_self_append pat.data []; rwa [List.append_nil] at h)

theorem rkey_inj {base q1 q2 : String} (h : rkey base q1 = rkey base q2) : q1 = q2 := by
  have hd := congrArg String.data h
  simp only [rkey, data_append, List.append_assoc] at hd
  exact strExt (List.append_cancel_left (List.append_cancel_left hd))

theorem lookup_dinsert_self (l : List (String × ℚ)) (k : String) (v : ℚ) :
    List.lookup k (dinsert l k v) = some v := by
  induction l with
  | nil => simp [dinsert, List.lookup]
  | cons p t ih =>
    obtain ⟨k1, v1⟩ := p
    by_cases hk : k1 = k
    · subst hk
      simp [dinsert, List.lookup]
    · simp only [dinsert, if_neg hk, List.lookup]
      have hb : (k == k1) = false := beq_eq_false_iff_ne.mpr (Ne.symm hk)
      rw [hb]
      exact ih

theorem lookup_dinsert_other {k2 k : String} (hne : k2 ≠ k) (l : List (String × ℚ)) (v : ℚ) :
    List.lookup k2 (dinsert l k v) = List.lookup k2 l := by
  induction l with
  | nil =>
    simp only [dinsert, List.lookup]
    rw [beq_eq_false_iff_ne.mpr hne]
  | cons p t ih =>
    obtain ⟨k1, v1⟩ := p
    by_cases hk : k1 = k
    · subst hk
      simp only [dinsert, if_pos rfl, List.lookup]
      rw [beq_eq_false_iff_ne.mpr hne]
    · simp only [dinsert, if_neg hk, List.lookup]
      cases hb : k2 == k1
      · exact ih
      · rfl

theorem lookup_dinsert_isSome {k2 k : String} {l : List (String × ℚ)} {v : ℚ}
    (h : (List.lookup k2 (dinsert l k v)).isSome = true) :
    k2 = k ∨ (List.lookup k2 l).isSome = true := by
  by_cases hk : k2 = k
  · exact Or.inl hk
  · right
    rwa [lookup_dinsert_other hk] at h

theorem lookup_eq_none_iff (k : String) (l : List (String × ℚ)) :
    List.lookup k l = none ↔ k ∉ l.map Prod.fst := by
  induction l with
  | nil => simp [List.lookup]
  | cons p t ih =>
    obtain ⟨k1, v1⟩ := p
    simp only [List.lookup, List.map_cons, List.mem_cons]
    cases hb : k == k1
    · have : k ≠ k1 := by simpa using (beq_eq_false_iff_ne.mp hb)
      simp [this, ih]
    · have : k = k1 := by simpa using hb
      simp [this]

theorem mem_of_lookup_eq_some {k : String} {v : ℚ} :
    ∀ {l : List (String × ℚ)}, List.lookup k l = some v → (k, v) ∈ l := by
  intro l
  induction l with
  | nil => intro h; simp [List.lookup] at h
  | cons p t ih =>
    obtain ⟨k1, v1⟩ := p
    intro h
    simp only [List.lookup] at h
    cases hb : k == k1
    · rw [hb] at h
      exact List.mem_cons_of_mem _ (ih h)
    · rw [hb] at h
      have hk : k = k1 := by simpa using hb
      have hv : v1 = v := by simpa using h
      simp [hk, hv]

theorem lookup_eq_some_of_mem_nodup :
    ∀ {l : List (String × ℚ)}, (l.map Prod.fst).Nodup →
      ∀ {k : String} {v : ℚ}, (k, v) ∈ l → List.lookup k l = some v := by
  intro l
  induction l with
  | nil => intro _ k v h; simp at h
  | cons p t ih =>
    obtain ⟨k1, v1⟩ := p
    intro nd k v h
    simp only [List.map_cons, List.nodup_cons] at nd
    rcases List.mem_cons.mp h with h1 | h1
    · obtain ⟨hk, hv⟩ := Prod.mk.inj h1
      subst hk; subst hv
      simp [List.lookup]
    · have hk : k ≠ k1 := by
        intro he
        subst he
        exact nd.1 (List.mem_map.mpr ⟨(k, v), h1, rfl⟩)
      simp only [List.lookup]
      rw [beq_eq_false_iff_ne.mpr hk]
      exact ih nd.2 h1

theorem lookup_perm {l1 l2 : List (String × ℚ)} (h : l1.Perm l2)
    (nd : (l1.map Prod.fst).Nodup) (k : String) :
    List.lookup k l1 = List.lookup k l2 := by
  have nd2 : (l2.map Prod.fst).Nodup := ((h.map Prod.fst).nodup_iff).mp nd
  cases h1 : List.lookup k l1 with
  | some v =>
    exact (lookup_eq_some_of_mem_nodup nd2 (h.mem_iff.mp (mem_of_lookup_eq_some h1))).symm
  | none =>
    have hk := (lookup_eq_none_iff k l1).mp h1
    have hk2 : k ∉ l2.map Prod.fst := fun hm => hk (((h.map Prod.fst).mem_iff).mpr hm)
    exact ((lookup_eq_none_iff k l2).mpr hk2).symm

theorem sortStr_sorted (l : List String) : (sortStr l).Sorted strLeP :=
  List.sorted_insertionSort strLeP l

theorem sortStr_perm (l : List String) : (sortStr l).Perm l :=
  List.perm_insertionSort strLeP l

theorem sortStr_eq_of_perm {l1 l2 : List String} (h : l1.Perm l2) :
    sortStr l1 = sortStr l2 :=
  List.eq_of_perm_of_sorted ((sortStr_perm l1).trans (h.trans (sortStr_perm l2).symm))
    (sortStr_sorted l1) (sortStr_sorted l2)

theorem strLtP_of_leP_ne {a b : String} (hle : strLeP a b) (hne : a ≠ b) : strLtP a b := by
  simp only [strLeP, strLe, strLt, Bool.not_eq_true', strLtP] at hle ⊢
  cases h : lexLt a.data b.data
  · exact absurd (strExt (lexLt_total h hle)) hne
  · rfl

theorem sortStr_strict {l : List String} (nd : l.Nodup) : (sortStr l).Pairwise strLtP := by
  have nd2 : (sortStr l).Nodup := ((sortStr_perm l).nodup_iff).mpr nd
  exact (sortStr_sorted l).imp₂ (fun _ _ h1 h2 => strLtP_of_leP_ne h1 h2) nd2

theorem mem_dedupAux :
    ∀ (l seen : List String) (x : String), x ∈ dedupAux l seen ↔ x ∈ l ∧ x ∉ seen := by
  intro l
  induction l with
  | nil => intro seen x; simp [dedupAux]
  | cons y t ih =>
    intro seen x
    by_cases hy : y ∈ seen
    · rw [dedupAux, if_pos hy, ih]
      constructor
      · rintro ⟨h1, h2⟩
        exact ⟨List.mem_cons_of_mem _ h1, h2⟩
      · rintro ⟨h1, h2⟩
        rcases List.mem_cons.mp h1 with rfl | h1
        · exact absurd hy h2
        · exact ⟨h1, h2⟩
    · rw [dedupAux, if_neg hy]
      constructor
      · intro h
        rcases List.mem_cons.mp h with rfl | h
        · exact ⟨List.mem_cons_self _ _, hy⟩
        · have := (ih (y :: seen) x).mp h
          refine ⟨List.mem_cons_of_mem _ this.1, fun hs => this.2 (List.mem_cons_of_mem _ hs)⟩
      · rintro ⟨h1, h2⟩
        rcases List.mem_cons.mp h1 with rfl | h1
        · exact List.mem_cons_self _ _
        · by_cases hxy : x = y
          · subst hxy; exact List.mem_cons_self _ _
          · exact List.mem_cons_of_mem _ ((ih (y :: seen) x).mpr
              ⟨h1, fun hs => (List.mem_cons.mp hs).elim hxy h2⟩)

theorem mem_dedupStr (l : List String) (x : String) : x ∈ dedupStr l ↔ x ∈ l := by
  simp [dedupStr, mem_dedupAux]

theorem mem_sortStr (l : List String) (x : String) : x ∈ sortStr l ↔ x ∈ l :=
  (sortStr_perm l).mem_iff

/-! ## Lemmas on the error-report sanitizer -/

theorem matchCodeAt_digits {cs : List Char} {g : List Char}
    (h : matchCodeAt cs = some g) : ∀ c ∈ g, c.isDigit = true := by
  unfold matchCodeAt at h
  by_cases hp : "code".data.isPrefixOf cs = true
  · rw [if_pos hp] at h
    set d3 := ((cs.drop 4).dropWhile (fun c => !(isWordChar c))).take 3 with hd3
    by_cases hc : d3.length = 3 && d3.all Char.isDigit
    · rw [if_pos hc] at h
      obtain rfl : d3 = g := Option.some.inj h
      simp only [Bool.and_eq_true] at hc
      exact fun c hcm => List.all_eq_true.mp hc.2 c hcm
    · rw [if_neg hc] at h
      exact absurd h (by simp)
  · rw [if_neg hp] at h
    exact absurd h (by simp)

theorem searchCode_digits :
    ∀ {cs g : List Char}, searchCode cs = some g → ∀ c ∈ g, c.isDigit = true := by
  intro cs
  induction cs with
  | nil => intro g h; simp [searchCode] at h
  | cons c0 t ih =>
    intro g h
    rw [searchCode] at h
    cases hm : matchCodeAt (c0 :: t) with
    | some g1 =>
      rw [hm] at h
      obtain rfl : g1 = g := Option.some.inj h
      exact matchCodeAt_digits hm
    | none =>
      rw [hm] at h
      exact ih h

theorem digit_not_special {c : Char} (h : c.isDigit = true) : c ≠ '{' ∧ c ≠ '"' := by
  constructor <;> rintro rfl <;> exact absurd h (by decide)

theorem hintPart_chars (exc : String) :
    ∀ c ∈ (hintPart exc).data, c ≠ '{' ∧ c ≠ '"' := by
  cases hext : extractHint exc with
  | none =>
    simp [hintPart, hext]
  | some h =>
    simp only [hintPart, hext]
    unfold extractHint at hext
    by_cases hi : subStr exc "invalid_api_function" = true
    · rw [if_pos hi] at hext
      obtain rfl : "invalid_api_function" = h := Option.some.inj hext
      decide
    · rw [if_neg hi] at hext
      cases hs : searchCode exc.data with
      | none => rw [hs] at hext; exact absurd hext (by simp)
      | some g =>
        rw [hs] at hext
        obtain rfl : "code " ++ (⟨g⟩ : String) = h := Option.some.inj hext
        intro c hc
        simp only [data_append, List.mem_append] at hc
        rcases hc with hc | hc
        · rcases hc with hc | hc
          · revert hc
            revert c
            decide
          · rcases hc with hc | hc
            · revert hc
              revert c
              decide
            · exact digit_not_special (searchCode_digits hs c hc)
        · revert hc
          revert c
          decide

theorem errorReport_mentions_failure (ts exc : String) :
    subStr (errorReport ts exc) "Could not fetch FX rates due to a provider error." = true := by
  unfold errorReport
  apply subStr_append_left
  apply subStr_append_left
  apply subStr_append_left
  exact subStr_suffix _ _

theorem errorReport_mentions_key (ts exc : String) :
    subStr (errorReport ts exc) "EXCHANGERATE_ACCESS_KEY" = true := by
  unfold errorReport
  apply subStr_append_left
  apply subStr_append_right
  decide

theorem errorReport_mentions_hint (ts exc h : String) (hh : extractHint exc = some h) :
    subStr (errorReport ts exc) h = true := by
  unfold errorReport
  apply subStr_append_left
  apply subStr_append_left
  apply subStr_append_right
  simp only [hintPart, hh]
  apply subStr_append_left
  exact subStr_suffix _ _

theorem errorReport_no_brace (ts exc : String) (hts : '{' ∉ ts.data) :
    '{' ∉ (errorReport ts exc).data := by
  unfold errorReport
  intro hc
  simp only [data_append, List.mem_append] at hc
  rcases hc with ((((((hc | hc) | hc) | hc) | hc) | hc) | hc)
  · exact absurd hc (by decide)
  · exact hts hc
  · exact absurd hc (by decide)
  · exact absurd hc (by decide)
  · exact (hintPart_chars exc _ hc).1 rfl
  · exact absurd hc (by decide)
  · exact absurd hc (by decide)

theorem errorReport_no_quote (ts exc : String) (hts : '"' ∉ ts.data) :
    '"' ∉ (errorReport ts exc).data := by
  unfold errorReport
  intro hc
  simp only [data_append, List.mem_append] at hc
  rcases hc with ((((((hc | hc) | hc) | hc) | hc) | hc) | hc)
  · exact absurd hc (by decide)
  · exact hts hc
  · exact absurd hc (by decide)
  · exact absurd hc (by decide)
  · exact (hintPart_chars exc _ hc).2 rfl
  · exact absurd hc (by decide)
  · exact absurd hc (by decide)

theorem errorReport_no_success (ts exc : String) (hts : '"' ∉ ts.data) :
    subStr (errorReport ts exc) "\"success\"" = false := by
  cases h : subStr (errorReport ts exc) "\"success\"" with
  | false => rfl
  | true =>
    exfalso
    unfold subStr at h
    rw [show ("\"success\"" : String).data = '"' :: "success\"".data from rfl] at h
    exact errorReport_no_quote ts exc hts (head_mem_of_listHas h)

/-! ## Lemmas on `format_message` -/

theorem format_message_lines (rates : List (String × ℚ)) (ts : String) :
    format_message rates ts =
      joinLines (("FX Rates — " ++ ts) :: "" ::
        (if rates.isEmpty then ["No rates available."]
         else (sortStr (rates.map Prod.fst)).map (rateLine rates))) := by
  cases rates with
  | nil => rfl
  | cons p t => rfl

theorem format_message_single (k : String) (v : ℚ) (ts : String) :
    format_message [(k, v)] ts =
      "FX Rates — " ++ ts ++ "\n" ++ "" ++ "\n" ++ (k ++ ": " ++ formatRate6 v) := by
  apply strExt
  simp [format_message, joinLines, sortStr, List.insertionSort, List.orderedInsert,
    rateLine, dget, List.lookup, data_append, List.append_assoc]

theorem format_message_perm {rates rates2 : List (String × ℚ)} (ts : String)
    (h : rates.Perm rates2) (nd : (rates.map Prod.fst).Nodup) :
    format_message rates2 ts = format_message rates ts := by
  have hkeys : sortStr (rates2.map Prod.fst) = sortStr (rates.map Prod.fst) :=
    sortStr_eq_of_perm ((h.map Prod.fst).symm)
  have hline : rateLine rates2 = rateLine rates := by
    funext k
    unfold rateLine dget
    rw [lookup_perm h nd k]
  have hemp : rates2.isEmpty = rates.isEmpty := by
    cases rates with
    | nil => rw [(List.Perm.nil_eq h).symm]
    | cons p t =>
      cases rates2 with
      | nil => exact absurd h.symm (by simp)
      | cons p2 t2 => rfl
  rw [format_message_lines, format_message_lines, hkeys, hline, hemp]

/-! ## Loop invariants for the two per-quote loops -/

/-- What the fallback loop stores for quote `q` (lines 179–195): `1.0` for the
base itself, the direct rate when the echoed base matches, otherwise the
cross-rate; `none` when the quote or the base is missing from the response. -/
def crossExpected (base : String) (pb : Option String) (rates2 : List (String × ℚ))
    (q : String) : Option ℚ :=
  if q = base then some 1
  else
    match List.lookup q rates2, List.lookup base rates2 with
    | some rq, some rb => if pbMatches pb base then some rq else some (rq / rb)
    | _, _ => none

theorem step_write (base q0 : String) (E : String → Option ℚ) (w : ℚ)
    (hw : E q0 = some w) (qs : List String) (res res2 : List (String × ℚ))
    (hprop : ∀ q, List.lookup (rkey base q) res2 =
      if q ∈ qs ∧ (E q).isSome then E q
      else List.lookup (rkey base q) (dinsert res (rkey base q0) w)) :
    ∀ q, List.lookup (rkey base q) res2 =
      if q ∈ q0 :: qs ∧ (E q).isSome then E q else List.lookup (rkey base q) res := by
  intro q
  rw [hprop q]
  by_cases h1 : q ∈ qs ∧ (E q).isSome
  · rw [if_pos h1, if_pos ⟨List.mem_cons_of_mem _ h1.1, h1.2⟩]
  · rw [if_neg h1]
    by_cases h2 : q = q0
    · subst h2
      rw [lookup_dinsert_self, if_pos ⟨List.mem_cons_self _ _, by simp [hw]⟩, hw]
    · rw [lookup_dinsert_other (fun hk => h2 (rkey_inj hk))]
      rw [if_neg (fun hc => h1 ⟨(List.mem_cons.mp hc.1).resolve_left h2, hc.2⟩)]

theorem step_skip (base q0 : String) (E : String → Option ℚ)
    (hw : E q0 = none) (qs : List String) (res res2 : List (String × ℚ))
    (hprop : ∀ q, List.lookup (rkey base q) res2 =
      if q ∈ qs ∧ (E q).isSome then E q else List.lookup (rkey base q) res) :
    ∀ q, List.lookup (rkey base q) res2 =
      if q ∈ q0 :: qs ∧ (E q).isSome then E q else List.lookup (rkey base q) res := by
  intro q
  rw [hprop q]
  by_cases h1 : q ∈ qs ∧ (E q).isSome
  · rw [if_pos h1, if_pos ⟨List.mem_cons_of_mem _ h1.1, h1.2⟩]
  · rw [if_neg h1]
    by_cases h2 : q = q0
    · subst h2
      rw [if_neg (fun hc => by rw [hw] at hc; simp at hc)]
    · rw [if_neg (fun hc => h1 ⟨(List.mem_cons.mp hc.1).resolve_left h2, hc.2⟩)]

theorem crossLoop_spec (base : String) (pb : Option String) (rates2 : List (String × ℚ))
    (hnz : pbMatches pb base = false → List.lookup base rates2 ≠ some 0) :
    ∀ (qs : List String) (res : List (String × ℚ)),
      ∃ res2 lg, crossLoop base pb rates2 qs res = (.ok res2, lg) ∧
        ∀ q : String,
          List.lookup (rkey base q) res2 =
            if q ∈ qs ∧ (crossExpected base pb rates2 q).isSome
            then crossExpected base pb rates2 q
            else List.lookup (rkey base q) res := by
  intro qs
  induction qs with
  | nil =>
    intro res
    refine ⟨res, [], rfl, fun q => ?_⟩
    rw [if_neg (fun hc => by simp at hc)]
  | cons q0 qs ih =>
    intro res
    by_cases hq0 : q0 = base
    · have hE : crossExpected base pb rates2 q0 = some 1 := by
        rw [crossExpected, if_pos hq0]
      obtain ⟨res2, lg, heq, hprop⟩ := ih (dinsert res (rkey base q0) 1)
      refine ⟨res2, lg, ?_, ?_⟩
      · simp only [crossLoop, if_pos hq0]
        exact heq
      · exact step_write base q0 _ 1 hE qs res res2 hprop
    · cases hq : List.lookup q0 rates2 with
      | none =>
        have hE : crossExpected base pb rates2 q0 = none := by
          rw [crossExpected, if_neg hq0, hq]
        obtain ⟨res2, lg, heq, hprop⟩ := ih res
        refine ⟨res2, .warnMissingFallback base q0 :: lg, ?_, ?_⟩
        · simp only [crossLoop, if_neg hq0, hq, heq]
        · exact step_skip base q0 _ hE qs res res2 hprop
      | some rq =>
        cases hb : List.lookup base rates2 with
        | none =>
          have hE : crossExpected base pb rates2 q0 = none := by
            rw [crossExpected, if_neg hq0, hq, hb]
          obtain ⟨res2, lg, heq, hprop⟩ := ih res
          refine ⟨res2, .warnMissingFallback base q0 :: lg, ?_, ?_⟩
          · simp only [crossLoop, if_neg hq0, hq, hb, heq]
          · exact step_skip base q0 _ hE qs res res2 hprop
        | some rb =>
          cases hpb : pbMatches pb base with
          | true =>
            have hE : crossExpected base pb rates2 q0 = some rq := by
              rw [crossExpected, if_neg hq0, hq, hb]
              simp [hpb]
            obtain ⟨res2, lg, heq, hprop⟩ := ih (dinsert res (rkey base q0) rq)
            refine ⟨res2, lg, ?_, ?_⟩
            · simp only [crossLoop, if_neg hq0, hq, hb, hpb, if_true]
              exact heq
            · exact step_write base q0 _ rq hE qs res res2 hprop
          | false =>
            have hrb : rb ≠ 0 := fun h0 => hnz hpb (h0 ▸ hb)
            have hE : crossExpected base pb rates2 q0 = some (rq / rb) := by
              rw [crossExpected, if_neg hq0, hq, hb]
              simp [hpb]
            obtain ⟨res2, lg, heq, hprop⟩ := ih (dinsert res (rkey base q0) (rq / rb))
            refine ⟨res2, lg, ?_, ?_⟩
            · simp only [crossLoop, if_neg hq0, hq, hb, hpb, Bool.false_eq_true, if_false,
                if_neg hrb]
              exact heq
            · exact step_write base q0 _ (rq / rb) hE qs res res2 hprop

theorem happyLoop_spec (base : String) (rates : List (String × ℚ)) :
    ∀ (qs : List String) (res : List (String × ℚ)),
      (∀ q, List.lookup (rkey base q) (happyLoop base rates qs res).1 =
        if q ∈ qs ∧ (List.lookup q rates).isSome then List.lookup q rates
        else List.lookup (rkey base q) res) ∧
      (∀ k, (List.lookup k (happyLoop base rates qs res).1).isSome = true →
        (∃ q, q ∈ qs ∧ k = rkey base q ∧ (List.lookup q rates).isSome = true) ∨
          (List.lookup k res).isSome = true) := by
  intro qs
  induction qs with
  | nil =>
    intro res
    refine ⟨fun q => ?_, fun k h => Or.inr (by simpa [happyLoop] using h)⟩
    rw [if_neg (fun hc => by simp at hc)]
    simp [happyLoop]
  | cons q0 qs ih =>
    intro res
    cases hq : List.lookup q0 rates with
    | some r =>
      have h1 : happyLoop base rates (q0 :: qs) res =
          happyLoop base rates qs (dinsert res (rkey base q0) r) := by
        simp only [happyLoop, hq]
      obtain ⟨ihp, ihd⟩ := ih (dinsert res (rkey base q0) r)
      constructor
      · rw [h1]
        exact step_write base q0 _ r hq qs res _ ihp
      · intro k h
        rw [h1] at h
        rcases ihd k h with ⟨q, hq1, hq2, hq3⟩ | h2
        · exact Or.inl ⟨q, List.mem_cons_of_mem _ hq1, hq2, hq3⟩
        · rcases lookup_dinsert_isSome h2 with rfl | h3
          · exact Or.inl ⟨q0, List.mem_cons_self _ _, rfl, by simp [hq]⟩
          · exact Or.inr h3
    | none =>
      have h1 : (happyLoop base rates (q0 :: qs) res).1 = (happyLoop base rates qs res).1 := by
        simp only [happyLoop, hq]
      obtain ⟨ihp, ihd⟩ := ih res
      constructor
      · rw [h1]
        exact step_skip base q0 _ hq qs res _ ihp
      · intro k h
        rw [h1] at h
        rcases ihd k h with ⟨q, hq1, hq2, hq3⟩ | h2
        · exact Or.inl ⟨q, List.mem_cons_of_mem _ hq1, hq2, hq3⟩
        · exact Or.inr h2

/-! ## Claim theorems -/

/-- C4 counterexample: the claim says every entry with an empty side after
trimming is discarded, but `_normalize_pairs` only skips entries without a
`/`: `"EUR/"` is kept as the pair `("EUR", "")` instead of being dropped. -/
theorem c4_counterexample :
    normalize_pairs ["EUR/"] = [("EUR", "")] ∧ ("EUR", "") ∈ normalize_pairs ["EUR/"] := by
  decide

/-- C4 (amended): normalization splits each entry on the first `/`, trims and
uppercases, and discards exactly the entries that (after trimming) contain no
`/`; entries with an empty side are kept.  Normalizing
`["EUR/USD", " bogus ", "USD/HUF"]` yields exactly `(EUR,USD)` and
`(USD,HUF)`, and no malformed entry causes an error (normalization is a total
function). -/
theorem c4_theorem :
    (∀ p : String,
      normalizeOne p = none ↔ ¬ ((pyUpper (pyStrip p)).data.contains '/' = true)) ∧
    (∀ p b q : String, normalizeOne p = some (b, q) →
      b = pyStrip (splitFirstSlash (pyUpper (pyStrip p))).1 ∧
      q = pyStrip (splitFirstSlash (pyUpper (pyStrip p))).2) ∧
    normalize_pairs ["EUR/USD", " bogus ", "USD/HUF"] = [("EUR", "USD"), ("USD", "HUF")] := by
  refine ⟨?_, ?_, by decide⟩
  · intro p
    by_cases hc : (pyUpper (pyStrip p)).data.contains '/' = true
    · have hemp : ¬ (pyUpper (pyStrip p) = "") := by
        intro he
        rw [he] at hc
        exact absurd hc (by decide)
      simp [normalizeOne, hc, hemp]
    · simp [normalizeOne, hc]
      exact Or.inr (by simpa using hc)
  · intro p b q h
    by_cases hc : pyUpper (pyStrip p) = "" ∨ ¬ ((pyUpper (pyStrip p)).data.contains '/' = true)
    · rw [normalizeOne, if_pos hc] at h
      exact absurd h (by simp)
    · rw [normalizeOne, if_neg hc] at h
      obtain ⟨hb, hq⟩ := Prod.mk.inj (Option.some.inj h)
      exact ⟨hb.symm, hq.symm⟩

/-- C5: in the derived-rate pipeline variant (modelled from the spec), the
rate of the synthetic currency is the fetched intermediate rate times the
configured peg, rounded to 6 decimals — with peg `1.7` and fetched rate
`1.088` it equals `round(1.088 * 1.7, 6) = 1.8496` — and the rendered line
for the derived currency carries the explicit `"(derived)"` suffix. -/
theorem c5_theorem :
    derivedRate ((1088 : ℚ) / 1000) ((17 : ℚ) / 10) = (18496 : ℚ) / 10000 ∧
    ∀ render : ℚ → String,
      subStr (derivedLine "AZN" render ((1088 : ℚ) / 1000) ((17 : ℚ) / 10))
        "(derived)" = true := by
  constructor
  · have h2 : (⌊((1088 : ℚ) / 1000 * ((17 : ℚ) / 10)) * 1000000 + 1 / 2⌋ : ℤ) = 1849600 := by
      rw [Int.floor_eq_iff]
      constructor <;> norm_num
    unfold derivedRate roundTo6
    rw [h2]
    norm_num
  · intro render
    unfold derivedLine
    exact subStr_append_right _ _ _ (by decide)

/-- C8: whenever normalization of the input yields no well-formed pair
(empty input or all entries malformed), `fetch_rates` returns the empty
table, issues no provider request, and raises nothing — even when the access
key is absent, since the early return precedes the credential check. -/
theorem c8_theorem (accessKey : Option String) (prov : Req → Resp)
    (pairs : List String) (h : normalize_pairs pairs = []) :
    fetch_rates accessKey prov pairs = ⟨.ok [], [], []⟩ := by
  simp [fetch_rates, h]

theorem c8_witness :
    fetch_rates none (fun _ => ⟨200, .jtext ""⟩) ["bogus", " ", "", "x"] = ⟨.ok [], [], []⟩ :=
  c8_theorem none (fun _ => ⟨200, .jtext ""⟩) ["bogus", " ", "", "x"] (by decide)

/-- C9: `format_message` never fails on an unrecognized time zone — whenever
the zone database errors on the requested zone (`ZoneInfo` raising, or being
unavailable), the report is built from the un-converted instant. -/
theorem c9_theorem (rates : List (String × ℚ)) (now : Int)
    (tzdb : String → Except String (Int → Int)) (tz : String)
    (render : Int → String) (e : String) (h : tzdb tz = .error e) :
    format_message_tz rates now tzdb tz render = format_message rates (render now) := by
  unfold format_message_tz localize
  rw [h]

theorem c9_witness :
    format_message_tz [] 0 (fun _ => .error "ZoneInfoNotFoundError") "Not/AZone"
      (fun _ => "T") = format_message [] "T" :=
  c9_theorem [] 0 (fun _ => .error "ZoneInfoNotFoundError") "Not/AZone"
    (fun _ => "T") "ZoneInfoNotFoundError" rfl

/-- A provider that rejects base-qualified requests with the
`invalid_api_function` shape error and answers the symbol-only retry with a
rate table in which the requested base `USD` has rate `0.0` and the echoed
base is `EUR`. -/
def prov10 : Req → Resp := fun r =>
  match r.base? with
  | some _ => ⟨404, .jtext "invalid_api_function"⟩
  | none => ⟨200, .jdict "" "" "" none [("USD", 0), ("HUF", mkRat 350 1)] (some "EUR")⟩

/-- C10: the cross-rate division of the fallback path is unguarded — with
the provider above and input `["USD/HUF"]`, `fetch_rates` raises the Python
`ZeroDivisionError` (modelled as `FErr.zeroDivision`, distinct from every
`RuntimeError` constructor) instead of the documented `RuntimeError`. -/
theorem c10_theorem :
    (fetch_rates (some "key") prov10 ["USD/HUF"]).result = .error .zeroDivision ∧
    ∀ s d, (FErr.zeroDivision ≠ FErr.apiError s d ∧ FErr.zeroDivision ≠ FErr.exchangeError d) := by
  constructor
  · rfl
  · intro s d
    exact ⟨fun h => FErr.noConfusion h, fun h => FErr.noConfusion h⟩

/-- The property claimed of the fetch-failure report: it states the failure,
names the configuration variable, repeats the extracted hint when one is
identifiable, leaks neither a `{` nor a `"success"` fragment, and is still
handed to delivery when the run is not dry and credentials exist. -/
def C2Prop (ts exc : String) (dry hasCreds : Bool) : Prop :=
  subStr (errorReport ts exc) "Could not fetch FX rates due to a provider error." = true ∧
  subStr (errorReport ts exc) "EXCHANGERATE_ACCESS_KEY" = true ∧
  (∀ h, extractHint exc = some h → subStr (errorReport ts exc) h = true) ∧
  '{' ∉ (errorReport ts exc).data ∧
  subStr (errorReport ts exc) "\"success\"" = false ∧
  (dry = false → hasCreds = true →
    RunAct.sent (errorReport ts exc) ∈ runOnFetchFailure ts exc dry hasCreds)

/-- C2: for every exception text raised by the fetch stage (and every
rendered timestamp, which `strftime` with format `%Y-%m-%d %H:%M %Z` keeps free of
braces and double quotes), the report `run` builds and delivers satisfies
`C2Prop`. -/
theorem c2_theorem (ts exc : String) (dry hasCreds : Bool)
    (h1 : '{' ∉ ts.data) (h2 : '"' ∉ ts.data) : C2Prop ts exc dry hasCreds := by
  refine ⟨errorReport_mentions_failure ts exc, errorReport_mentions_key ts exc,
    fun h hh => errorReport_mentions_hint ts exc h hh,
    errorReport_no_brace ts exc h1, errorReport_no_success ts exc h2, ?_⟩
  intro hd hc
  subst hd
  subst hc
  simp [runOnFetchFailure]

theorem c2_witness :
    C2Prop "2026-01-01 00:00 UTC" "API error (status 404): invalid_api_function"
      false true :=
  c2_theorem "2026-01-01 00:00 UTC" "API error (status 404): invalid_api_function"
    false true (by decide) (by decide)

/-- C3: `format_message` renders a header line and a blank line, then either
the single sentinel line (empty table) or one line per pair keyed in strict
lexicographic order independent of insertion order, each at fixed 6-decimal
precision; the concrete table `{"EUR/USD": 1.2345}` yields the literal
substring `"EUR/USD: 1.234500"`. -/
theorem c3_theorem (rates : List (String × ℚ)) (ts : String)
    (nd : (rates.map Prod.fst).Nodup) :
    (format_message rates ts =
      joinLines (("FX Rates — " ++ ts) :: "" ::
        (if rates.isEmpty then ["No rates available."]
         else (sortStr (rates.map Prod.fst)).map (rateLine rates)))) ∧
    (sortStr (rates.map Prod.fst)).Pairwise strLtP ∧
    (∀ rates2, rates.Perm rates2 → format_message rates2 ts = format_message rates ts) ∧
    format_message [] "2026-01-01 00:00 UTC" =
      "FX Rates — 2026-01-01 00:00 UTC\n\nNo rates available." ∧
    subStr (format_message [("EUR/USD", (12345 : ℚ) / 10000)] "2026-01-01 00:00 UTC")
      "EUR/USD: 1.234500" = true := by
  refine ⟨format_message_lines rates ts, sortStr_strict nd, ?_, by decide, ?_⟩
  · intro rates2 hp
    exact format_message_perm ts hp nd
  · rw [format_message_single, formatRate6_example]
    decide

theorem c3_witness :
    (format_message [("USD/HUF", mkRat 350 1), ("EUR/USD", mkRat 107 100)] "T" =
      joinLines (("FX Rates — " ++ "T") :: "" ::
        (if ([("USD/HUF", mkRat 350 1), ("EUR/USD", mkRat 107 100)] :
            List (String × ℚ)).isEmpty then ["No rates available."]
         else (sortStr ([("USD/HUF", mkRat 350 1),
            ("EUR/USD", mkRat 107 100)].map Prod.fst)).map
              (rateLine [("USD/HUF", mkRat 350 1), ("EUR/USD", mkRat 107 100)])))) ∧
    (sortStr ([("USD/HUF", mkRat 350 1),
        ("EUR/USD", mkRat 107 100)].map Prod.fst)).Pairwise strLtP ∧
    (∀ rates2, ([("USD/HUF", mkRat 350 1), ("EUR/USD", mkRat 107 100)] :
        List (String × ℚ)).Perm rates2 →
      format_message rates2 "T" =
        format_message [("USD/HUF", mkRat 350 1), ("EUR/USD", mkRat 107 100)] "T") ∧
    format_message [] "2026-01-01 00:00 UTC" =
      "FX Rates — 2026-01-01 00:00 UTC\n\nNo rates available." ∧
    subStr (format_message [("EUR/USD", (12345 : ℚ) / 10000)] "2026-01-01 00:00 UTC")
      "EUR/USD: 1.234500" = true :=
  c3_theorem [("USD/HUF", mkRat 350 1), ("EUR/USD", mkRat 107 100)] "T" (by decide)

/-! ## Unfolding helpers for the fetch pipeline -/

theorem normalize_ne_nil_of_group {pairs : List String} {base : String}
    {quotes : List String} {rest : List (String × List String)}
    (hg : groupPairs (normalize_pairs pairs) = (base, quotes) :: rest) :
    normalize_pairs pairs ≠ [] := by
  intro h0
  rw [h0] at hg
  simp [groupPairs] at hg

theorem fetch_rates_groups (k : String) (prov : Req → Resp) (pairs : List String)
    (gs : List (String × List String)) (hg : groupPairs (normalize_pairs pairs) = gs)
    (hne : normalize_pairs pairs ≠ []) :
    fetch_rates (some k) prov pairs = fetchGroups prov gs [] := by
  simp only [fetch_rates]
  rw [if_neg hne, hg]

theorem processGroup_fatal (prov : Req → Resp) (base : String) (quotes : List String)
    (res0 : List (String × ℚ)) (resp : Resp)
    (hp : prov ⟨some base, quotes⟩ = resp)
    (hs : resp.status ≠ 200) (hr : shouldRetry resp.status resp.body = false) :
    processGroup prov base quotes res0 =
      ⟨.error (.apiError resp.status (bodyStr resp.body)), [⟨some base, quotes⟩],
        [.errorFetchFailed base (bodyStr resp.body)]⟩ := by
  simp only [processGroup]
  rw [hp, if_pos hs, hr]
  simp

theorem processGroup_successFalse (prov : Req → Resp) (base : String)
    (quotes : List String) (res0 : List (String × ℚ)) (ets es fs : String)
    (rates : List (String × ℚ)) (pb : Option String)
    (hp : prov ⟨some base, quotes⟩ = ⟨200, .jdict ets es fs (some false) rates pb⟩) :
    processGroup prov base quotes res0 =
      ⟨.error (.exchangeError es), [⟨some base, quotes⟩], [.errorExchangeApi base es]⟩ := by
  simp only [processGroup]
  rw [hp]
  simp

theorem processGroup_success (prov : Req → Resp) (base : String)
    (quotes : List String) (res0 : List (String × ℚ)) (ets es fs : String)
    (succ : Option Bool) (rates : List (String × ℚ)) (pb : Option String)
    (hp : prov ⟨some base, quotes⟩ = ⟨200, .jdict ets es fs succ rates pb⟩)
    (hsucc : succ ≠ some false) :
    processGroup prov base quotes res0 =
      ⟨.ok (happyLoop base rates quotes res0).1, [⟨some base, quotes⟩],
        (happyLoop base rates quotes res0).2⟩ := by
  simp only [processGroup]
  rw [hp]
  simp [hsucc]

theorem processGroup_fallback (prov : Req → Resp) (base : String)
    (quotes : List String) (res0 : List (String × ℚ)) (resp1 : Resp)
    (ets es fs : String) (succ : Option Bool) (rates2 : List (String × ℚ))
    (pb : Option String)
    (hp1 : prov ⟨some base, quotes⟩ = resp1)
    (hs : resp1.status ≠ 200)
    (hr : shouldRetry resp1.status resp1.body = true)
    (hp2 : prov ⟨none, sortStr (dedupStr (quotes ++ [base]))⟩ =
      ⟨200, .jdict ets es fs succ rates2 pb⟩) :
    processGroup prov base quotes res0 =
      ⟨(crossLoop base pb rates2 quotes res0).1,
        [⟨some base, quotes⟩, ⟨none, sortStr (dedupStr (quotes ++ [base]))⟩],
        .errorFetchFailed base (bodyStr resp1.body) ::
          (crossLoop base pb rates2 quotes res0).2⟩ := by
  simp only [processGroup]
  rw [hp1, if_pos hs, hr, hp2]
  simp

theorem fetchGroups_singleton_ok (prov : Req → Resp) (b : String) (qs : List String)
    (res0 res1 : List (String × ℚ)) (reqs : List Req) (logs : List LogE)
    (h : processGroup prov b qs res0 = ⟨.ok res1, reqs, logs⟩) :
    fetchGroups prov [(b, qs)] res0 = ⟨.ok res1, reqs, logs⟩ := by
  simp only [fetchGroups, h]
  simp

theorem fetchGroups_cons_error (prov : Req → Resp) (b : String) (qs : List String)
    (rest : List (String × List String)) (res0 : List (String × ℚ)) (e : FErr)
    (reqs : List Req) (logs : List LogE)
    (h : processGroup prov b qs res0 = ⟨.error e, reqs, logs⟩) :
    fetchGroups prov ((b, qs) :: rest) res0 = ⟨.error e, reqs, logs⟩ := by
  simp only [fetchGroups, h]

/-- A provider that fails every request with a plain 500 whose body does not
mention the requested base. -/
def provC6 : Req → Resp := fun _ => ⟨500, .jtext "server error"⟩

/-- C6 counterexample: on a fatal status the raised `RuntimeError` carries
the status and body detail but does not identify the offending base — for
base `EUR` and a 500 `"server error"` body the exception text contains no
`"EUR"`. -/
theorem c6_counterexample :
    (fetch_rates (some "key") provC6 ["EUR/USD"]).result =
      .error (.apiError 500 "server error") ∧
    subStr (renderFErr (.apiError 500 "server error")) "EUR" = false :=
  ⟨rfl, by decide⟩

/-- C6 (amended): for every base group, a non-2xx status that does not
trigger the symbol-only fallback — and likewise a 200 response whose body
carries `success == False` — aborts the whole run with an error identifying
the status or the error detail, while the log entry (not the raised error)
identifies the offending base; no further base group is requested or
processed. -/
theorem c6_theorem (k base : String) (quotes : List String)
    (rest : List (String × List String)) (prov : Req → Resp) (pairs : List String)
    (hg : groupPairs (normalize_pairs pairs) = (base, quotes) :: rest) :
    (∀ resp : Resp, prov ⟨some base, quotes⟩ = resp →
      resp.status < 200 ∨ 300 ≤ resp.status →
      shouldRetry resp.status resp.body = false →
      fetch_rates (some k) prov pairs =
        ⟨.error (.apiError resp.status (bodyStr resp.body)), [⟨some base, quotes⟩],
          [.errorFetchFailed base (bodyStr resp.body)]⟩) ∧
    (∀ ets es fs rates pb,
      prov ⟨some base, quotes⟩ = ⟨200, .jdict ets es fs (some false) rates pb⟩ →
      fetch_rates (some k) prov pairs =
        ⟨.error (.exchangeError es), [⟨some base, quotes⟩],
          [.errorExchangeApi base es]⟩) := by
  have hne := normalize_ne_nil_of_group hg
  have hfr := fetch_rates_groups k prov pairs _ hg hne
  constructor
  · intro resp hp hrange hr
    have hs : resp.status ≠ 200 := by
      rcases hrange with h | h <;> omega
    rw [hfr, fetchGroups_cons_error prov base quotes rest [] _ _ _
      (processGroup_fatal prov base quotes [] resp hp hs hr)]
  · intro ets es fs rates pb hp
    rw [hfr, fetchGroups_cons_error prov base quotes rest [] _ _ _
      (processGroup_successFalse prov base quotes [] ets es fs rates pb hp)]

theorem c6_witness :
    (∀ resp : Resp, provC6 ⟨some "EUR", ["USD"]⟩ = resp →
      resp.status < 200 ∨ 300 ≤ resp.status →
      shouldRetry resp.status resp.body = false →
      fetch_rates (some "key") provC6 ["EUR/USD"] =
        ⟨.error (.apiError resp.status (bodyStr resp.body)), [⟨some "EUR", ["USD"]⟩],
          [.errorFetchFailed "EUR" (bodyStr resp.body)]⟩) ∧
    (∀ ets es fs rates pb,
      provC6 ⟨some "EUR", ["USD"]⟩ = ⟨200, .jdict ets es fs (some false) rates pb⟩ →
      fetch_rates (some "key") provC6 ["EUR/USD"] =
        ⟨.error (.exchangeError es), [⟨some "EUR", ["USD"]⟩],
          [.errorExchangeApi "EUR" es]⟩) :=
  c6_theorem "key" "EUR" ["USD"] [] provC6 ["EUR/USD"] (by decide)

/-- C7: on a successful (200, non-failure-flag) response for a base group,
requested quotes missing from the returned rate set are skipped without
failing the batch, and the returned table holds exactly the `BASE/QUOTE`
keys whose rate could be determined — absent, not placeholder, otherwise. -/
theorem c7_theorem (k base : String) (quotes : List String) (prov : Req → Resp)
    (pairs : List String) (ets es fs : String) (succ : Option Bool)
    (rates : List (String × ℚ)) (pb : Option String)
    (hg : groupPairs (normalize_pairs pairs) = [(base, quotes)])
    (hp : prov ⟨some base, quotes⟩ = ⟨200, .jdict ets es fs succ rates pb⟩)
    (hsucc : succ ≠ some false) :
    ∃ res, (fetch_rates (some k) prov pairs).result = .ok res ∧
      (∀ q ∈ quotes, List.lookup (rkey base q) res = List.lookup q rates) ∧
      (∀ key2, (List.lookup key2 res).isSome = true →
        ∃ q, q ∈ quotes ∧ key2 = rkey base q ∧ (List.lookup q rates).isSome = true) := by
  have hne := normalize_ne_nil_of_group hg
  have hfr := fetch_rates_groups k prov pairs _ hg hne
  have hpg := processGroup_success prov base quotes [] ets es fs succ rates pb hp hsucc
  have hfg := fetchGroups_singleton_ok prov base quotes [] _ _ _ hpg
  obtain ⟨hloop, hdom⟩ := happyLoop_spec base rates quotes []
  refine ⟨(happyLoop base rates quotes []).1, by rw [hfr, hfg], ?_, ?_⟩
  · intro q hq
    rw [hloop q]
    cases hlr : List.lookup q rates with
    | some v => rw [if_pos ⟨hq, rfl⟩]
    | none =>
      rw [if_neg (fun hcon => by simp at hcon)]
      simp [List.lookup]
  · intro key2 hk
    rcases hdom key2 hk with ⟨q, hq1, hq2, hq3⟩ | habs
    · exact ⟨q, hq1, hq2, hq3⟩
    · simp [List.lookup] at habs

/-- A provider answering every request with a 200 rate table that contains
`USD` but not `XXX`. -/
def provC7 : Req → Resp := fun _ =>
  ⟨200, .jdict "" "" "" none [("USD", mkRat 107 100)] (some "EUR")⟩

theorem c7_witness :
    ∃ res, (fetch_rates (some "key") provC7 ["EUR/USD", "EUR/XXX"]).result = .ok res ∧
      (∀ q ∈ ["USD", "XXX"], List.lookup (rkey "EUR" q) res =
        List.lookup q [("USD", mkRat 107 100)]) ∧
      (∀ key2, (List.lookup key2 res).isSome = true →
        ∃ q, q ∈ ["USD", "XXX"] ∧ key2 = rkey "EUR" q ∧
          (List.lookup q [("USD", mkRat 107 100)]).isSome = true) :=
  c7_theorem "key" "EUR" ["USD", "XXX"] provC7 ["EUR/USD", "EUR/XXX"]
    "" "" "" none [("USD", mkRat 107 100)] (some "EUR") (by decide) rfl (by decide)

/-- A provider that rejects the base-qualified request with the
`invalid_api_function` error shape and answers the symbol-only retry with
an `EUR`-based table containing both `USD` and `HUF`. -/
def provC1 : Req → Resp := fun r =>
  match r.base? with
  | some _ => ⟨404, .jdict "invalid_api_function" "invalid_api_function" "errbody"
      none [] none⟩
  | none => ⟨200, .jdict "" "" "" none
      [("USD", mkRat 1088 1000), ("HUF", mkRat 3934 10)] (some "EUR")⟩

/-- C1: for a base group rejected with the unsupported-request-shape error,
`fetch_rates` retries exactly once with a symbol-only request that includes
the base among the requested symbols and then stores, for each requested
quote, exactly what `crossExpected` describes: `1.0` for a quote equal to
the base without consulting the response, the direct rate `rates[quote]`
when the echoed provider base equals the requested base, and the
cross-rate `rates[quote] / rates[base]` otherwise, whenever quote and base
are both present in the returned rate set (the divisor being nonzero, the
zero case raises instead, see C10). -/
theorem c1_theorem (k base : String) (quotes : List String) (prov : Req → Resp)
    (pairs : List String) (resp1 : Resp) (ets es fs : String) (succ : Option Bool)
    (rates2 : List (String × ℚ)) (pb : Option String)
    (hg : groupPairs (normalize_pairs pairs) = [(base, quotes)])
    (hp1 : prov ⟨some base, quotes⟩ = resp1)
    (hs : resp1.status ≠ 200)
    (hr : shouldRetry resp1.status resp1.body = true)
    (hp2 : prov ⟨none, sortStr (dedupStr (quotes ++ [base]))⟩ =
      ⟨200, .jdict ets es fs succ rates2 pb⟩)
    (hnz : pbMatches pb base = false → List.lookup base rates2 ≠ some 0) :
    (fetch_rates (some k) prov pairs).reqs =
      [⟨some base, quotes⟩, ⟨none, sortStr (dedupStr (quotes ++ [base]))⟩] ∧
    base ∈ sortStr (dedupStr (quotes ++ [base])) ∧
    ∃ res, (fetch_rates (some k) prov pairs).result = .ok res ∧
      ∀ q ∈ quotes, List.lookup (rkey base q) res = crossExpected base pb rates2 q := by
  have hne := normalize_ne_nil_of_group hg
  have hfr := fetch_rates_groups k prov pairs _ hg hne
  obtain ⟨res2, lg, hcl, hprop⟩ := crossLoop_spec base pb rates2 hnz quotes []
  have hpg2 : processGroup prov base quotes [] =
      ⟨.ok res2, [⟨some base, quotes⟩, ⟨none, sortStr (dedupStr (quotes ++ [base]))⟩],
        .errorFetchFailed base (bodyStr resp1.body) :: lg⟩ := by
    rw [processGroup_fallback prov base quotes [] resp1 ets es fs succ rates2 pb
      hp1 hs hr hp2, hcl]
  have hfg := fetchGroups_singleton_ok prov base quotes [] res2 _ _ hpg2
  refine ⟨by rw [hfr, hfg], ?_, res2, by rw [hfr, hfg], ?_⟩
  · rw [mem_sortStr, mem_dedupStr]
    exact List.mem_append_right _ (List.mem_cons_self base [])
  · intro q hq
    rw [hprop q]
    by_cases hi : (crossExpected base pb rates2 q).isSome = true
    · rw [if_pos ⟨hq, hi⟩]
    · rw [if_neg (fun hc => hi hc.2)]
      have hE : crossExpected base pb rates2 q = none := by
        cases hE2 : crossExpected base pb rates2 q with
        | none => rfl
        | some v => rw [hE2] at hi; exact absurd rfl hi
      simp [List.lookup, hE]

theorem c1_witness :
    (fetch_rates (some "key") provC1 ["USD/HUF"]).reqs =
      [⟨some "USD", ["HUF"]⟩, ⟨none, sortStr (dedupStr (["HUF"] ++ ["USD"]))⟩] ∧
    "USD" ∈ sortStr (dedupStr (["HUF"] ++ ["USD"])) ∧
    ∃ res, (fetch_rates (some "key") provC1 ["USD/HUF"]).result = .ok res ∧
      ∀ q ∈ ["HUF"], List.lookup (rkey "USD" q) res =
        crossExpected "USD" (some "EUR")
          [("USD", mkRat 1088 1000), ("HUF", mkRat 3934 10)] q :=
  c1_theorem "key" "USD" ["HUF"] provC1 ["USD/HUF"]
    ⟨404, .jdict "invalid_api_function" "invalid_api_function" "errbody" none [] none⟩
    "" "" "" none [("USD", mkRat 1088 1000), ("HUF", mkRat 3934 10)] (some "EUR")
    (by decide) rfl (by decide) (by decide) rfl (by decide)

end FxBot
